import Mathlib

/-!
Shallow embedding of the NASA contract-data transformation pipeline
(`fetch-contracts.py`): the district resolver, the sentence-caser with its
abbreviation fixes, the acronym/definition normalizer (table loading,
longest-first key ordering, case-insensitive whole-word substitution), the
row sanitizer, and the per-line orchestration.  Strings are modelled as
`List Char`; the Python string operations used by the script act on ASCII
data and are embedded accordingly.  Regex substitution is modelled by a
fueled left-to-right scanner (fuel = input length, which is sufficient for
the non-empty patterns the script builds).
-/

namespace Nasa

/-! ### Character classes (ASCII, as used by the Python script) -/

/-- Whitespace stripped by Python `str.strip()` (ASCII range). -/
def isSpaceChar (c : Char) : Bool :=
  decide (c.toNat = 32 ∨ c.toNat = 9 ∨ c.toNat = 10 ∨ c.toNat = 13 ∨
    c.toNat = 11 ∨ c.toNat = 12)

/-- The character class `[A-Za-z0-9]` used by the acronym pattern lookarounds. -/
def isAlnumB (c : Char) : Bool :=
  decide ((65 ≤ c.toNat ∧ c.toNat ≤ 90) ∨ (97 ≤ c.toNat ∧ c.toNat ≤ 122) ∨
    (48 ≤ c.toNat ∧ c.toNat ≤ 57))

/-- The regex word class `\w` (ASCII): letters, digits, underscore. -/
def isWordB (c : Char) : Bool :=
  decide ((65 ≤ c.toNat ∧ c.toNat ≤ 90) ∨ (97 ≤ c.toNat ∧ c.toNat ≤ 122) ∨
    (48 ≤ c.toNat ∧ c.toNat ≤ 57) ∨ c.toNat = 95)

/-- ASCII letters, the `cased` characters relevant to Python `str.title()`. -/
def isAlphaB (c : Char) : Bool :=
  decide ((65 ≤ c.toNat ∧ c.toNat ≤ 90) ∨ (97 ≤ c.toNat ∧ c.toNat ≤ 122))

/-- ASCII digits, as accepted by `str.isdigit()` on the export data. -/
def isDigitB (c : Char) : Bool :=
  decide (48 ≤ c.toNat ∧ c.toNat ≤ 57)

theorem charToNat_ofNat (n : Nat) (h : n.isValidChar) : (Char.ofNat n).toNat = n := by
  rw [Char.ofNat, dif_pos h]
  simp [Char.ofNatAux, Char.toNat, UInt32.toNat, BitVec.toNat_ofNatLt]

theorem toNat_toLower (c : Char) :
    c.toLower.toNat = if 65 ≤ c.toNat ∧ c.toNat ≤ 90 then c.toNat + 32 else c.toNat := by
  unfold Char.toLower
  simp only []
  by_cases h : c.toNat ≥ 65 ∧ c.toNat ≤ 90
  · rw [if_pos h, if_pos h]
    exact charToNat_ofNat _ (Or.inl (by omega))
  · rw [if_neg h, if_neg h]

theorem toNat_toUpper (c : Char) :
    c.toUpper.toNat = if 97 ≤ c.toNat ∧ c.toNat ≤ 122 then c.toNat - 32 else c.toNat := by
  unfold Char.toUpper
  simp only []
  by_cases h : c.toNat ≥ 97 ∧ c.toNat ≤ 122
  · rw [if_pos h, if_pos h]
    exact charToNat_ofNat _ (Or.inl (by omega))
  · rw [if_neg h, if_neg h]

theorem charEq_of_toNat {c d : Char} (h : c.toNat = d.toNat) : c = d :=
  Char.ext (UInt32.ext h)

theorem toLower_toLower (c : Char) : c.toLower.toLower = c.toLower := by
  have h1 := toNat_toLower c
  have h2 := toNat_toLower c.toLower
  apply charEq_of_toNat
  split at h1 <;> split at h2 <;> omega

theorem toLower_toUpper (c : Char) : c.toUpper.toLower = c.toLower := by
  have h1 := toNat_toUpper c
  have h2 := toNat_toLower c.toUpper
  have h3 := toNat_toLower c
  apply charEq_of_toNat
  split at h1 <;> split at h2 <;> split at h3 <;> omega

theorem isSpaceChar_toLower (c : Char) : isSpaceChar c.toLower = isSpaceChar c := by
  have h1 := toNat_toLower c
  simp only [isSpaceChar]
  rw [decide_eq_decide]
  split at h1 <;> omega

theorem isAlnumB_toLower (c : Char) : isAlnumB c.toLower = isAlnumB c := by
  have h1 := toNat_toLower c
  simp only [isAlnumB]
  rw [decide_eq_decide]
  split at h1 <;> omega

theorem isWordB_toLower (c : Char) : isWordB c.toLower = isWordB c := by
  have h1 := toNat_toLower c
  simp only [isWordB]
  rw [decide_eq_decide]
  split at h1 <;> omega

/-! ### List-of-characters string primitives -/

/-- Strip all leading and trailing characters satisfying `p` from both ends,
the behavior of Python `str.strip(...)`. -/
def stripWith (p : Char → Bool) (s : List Char) : List Char :=
  ((s.dropWhile p).reverse.dropWhile p).reverse

/-- Python `str.strip()` (whitespace). -/
def pyStrip (s : List Char) : List Char := stripWith isSpaceChar s

/-- Python `str.strip('"')`. -/
def stripQuotes (s : List Char) : List Char := stripWith (fun c => c = '"') s

/-- Python `str.lower()` on ASCII data. -/
def lowerL (s : List Char) : List Char := s.map Char.toLower

/-- Python `str.title()` on ASCII data: the first character of every maximal
run of letters is uppercased, all other letters lowercased; the boolean
argument records whether the previous character was a letter. -/
def pyTitleAux : Bool → List Char → List Char
  | _, [] => []
  | prev, c :: cs =>
      (if isAlphaB c then (if prev then c.toLower else c.toUpper) else c) ::
        pyTitleAux (isAlphaB c) cs

def pyTitle (s : List Char) : List Char := pyTitleAux false s

/-- Decimal representation of a natural number, the embedding of Python
`str(n)` for the fiscal-year arithmetic. -/
def natReprAux : Nat → Nat → List Char
  | 0, _ => []
  | fuel + 1, n =>
      if n < 10 then [Char.ofNat (48 + n)]
      else natReprAux fuel (n / 10) ++ [Char.ofNat (48 + n % 10)]

def natRepr (n : Nat) : List Char := natReprAux (n + 1) n

/-- Numeric value of a digit string, the embedding of Python `int(...)` on
the two-digit district slice. -/
def digitsToNat (s : List Char) : Nat :=
  s.foldl (fun acc c => acc * 10 + (c.toNat - 48)) 0

/-! ### DistrictResolver (`_determine_district`) -/

def atLargeStates : List String := ["AK", "WY", "MT", "ND", "SD", "VT", "DE"]

/-- Embedding of `_determine_district`: at-large states map to `XX-00`
unconditionally; otherwise the slice `place_of_performance[-4:-2]` is taken
and used when it is a non-zero pair of digits. -/
def determineDistrict (stCode : String) (placeOfPerformance : String) : String :=
  if stCode ∈ atLargeStates then stCode ++ "-00"
  else
    let p := placeOfPerformance.data
    if 4 ≤ p.length then
      let districtNumber := (p.drop (p.length - 4)).take 2
      if districtNumber.all isDigitB ∧ digitsToNat districtNumber ≠ 0 then
        stCode ++ "-" ++ String.mk districtNumber
      else ""
    else ""

/-! ### Case-insensitive literal matching and regex-substitution scanner -/

/-- Match the literal pattern case-insensitively against a prefix of the
input, returning the remainder on success. -/
def matchPrefixCI : List Char → List Char → Option (List Char)
  | [], s => some s
  | _ :: _, [] => none
  | p :: ps, c :: cs => if p.toLower = c.toLower then matchPrefixCI ps cs else none

/-- Word-ness of an optional character; string ends count as non-word. -/
def wordOpt (o : Option Char) : Bool := o.elim false isWordB

/-- Alphanumeric-ness of an optional character; string ends count as no. -/
def alnumOpt (o : Option Char) : Bool := o.elim false isAlnumB

/-- Previous-character tracker after consuming a matched portion `m`. -/
def lastOr (prev : Option Char) (m : List Char) : Option Char :=
  match m.getLast? with
  | some d => some d
  | none => prev

/-- One pass of `re.sub` with pattern `\b<wrong>\b` (case-insensitive), as
used for the abbreviation fixes: a fueled left-to-right scan that matches the
literal at each position and checks both word boundaries against the original
text.  Fuel equal to the input length suffices for non-empty patterns. -/
def subWordAux (pat rep : List Char) : Nat → Option Char → List Char → List Char
  | 0, _, s => s
  | _ + 1, _, [] => []
  | fuel + 1, prev, c :: cs =>
      match matchPrefixCI pat (c :: cs) with
      | some rest =>
          let m := (c :: cs).take pat.length
          if (wordOpt prev != isWordB c) && (wordOpt m.getLast? != wordOpt rest.head?) then
            rep ++ subWordAux pat rep fuel (lastOr prev m) rest
          else c :: subWordAux pat rep fuel (some c) cs
      | none => c :: subWordAux pat rep fuel (some c) cs

def subWordCI (pat rep s : List Char) : List Char := subWordAux pat rep s.length none s

/-! ### SentenceCaser (`_sentence_case`) -/

/-- The `abbreviation_fixes` dictionary built by `_sentence_case`, in
insertion order.  The fiscal-year loop body reads `str(current_year)[2:]` on
every iteration instead of the loop variable, so for any current year at
least 2005 it inserts the single current-year token (repeatedly, which in a
dictionary amounts to one entry). -/
def abbreviationFixes (currentYear : Nat) : List (List Char × List Char) :=
  [("u.s.".data, "U.S.".data), ("ii".data, "II".data), ("iii".data, "III".data)] ++
    (if 2005 ≤ currentYear then
      [('f' :: 'y' :: (natRepr currentYear).drop 2,
        'F' :: 'Y' :: (natRepr currentYear).drop 2)]
     else [])

/-- Uppercase the first character (`text_lower[0].upper() + text_lower[1:]`). -/
def capFirst : List Char → List Char
  | [] => []
  | c :: cs => c.toUpper :: cs

/-- Apply each abbreviation fix in order via the boundary-checked sub. -/
def applyFixes (currentYear : Nat) (s : List Char) : List Char :=
  (abbreviationFixes currentYear).foldl (fun acc pr => subWordCI pr.1 pr.2 acc) s

/-- Embedding of `TextNormalizer._sentence_case`. -/
def sentenceCaseL (currentYear : Nat) (text : List Char) : List Char :=
  let t := pyStrip text
  if t.isEmpty then t
  else applyFixes currentYear (capFirst (lowerL t))

def sentenceCase (currentYear : Nat) (text : String) : String :=
  String.mk (sentenceCaseL currentYear text.data)

/-! ### AcronymNormalizer (`_load_data` / `normalize`) -/

/-- Try the alternation keys in order at the current position: the first key
that matches case-insensitively and whose trailing lookahead
`(?![A-Za-z0-9])` succeeds wins, returning the matched portion and the
remainder. -/
def tryKeysAt (keys : List (List Char)) (s : List Char) : Option (List Char × List Char) :=
  match keys with
  | [] => none
  | k :: ks =>
      match matchPrefixCI k s with
      | some rest =>
          if alnumOpt rest.head? then tryKeysAt ks s
          else some (s.take k.length, rest)
      | none => tryKeysAt ks s

/-- Association-list lookup (first entry with the given key). -/
def lookupA : List (List Char × List Char) → List Char → Option (List Char)
  | [], _ => none
  | (k, v) :: rest, q => if k = q then some v else lookupA rest q

/-- The `pattern.sub(replacement, text)` call of `normalize`: a fueled
left-to-right scan; a match may start only where the leading lookbehind
`(?<![A-Za-z0-9])` holds; the matched text is replaced by the mapping entry
for its lowercased form, falling back to the matched text itself. -/
def acroSubAux (keys : List (List Char)) (mapping : List (List Char × List Char)) :
    Nat → Option Char → List Char → List Char
  | 0, _, s => s
  | _ + 1, _, [] => []
  | fuel + 1, prev, c :: cs =>
      if alnumOpt prev then c :: acroSubAux keys mapping fuel (some c) cs
      else
        match tryKeysAt keys (c :: cs) with
        | some (m, rest) =>
            (lookupA mapping (lowerL m)).getD m ++
              acroSubAux keys mapping fuel (lastOr prev m) rest
        | none => c :: acroSubAux keys mapping fuel (some c) cs

def acroSub (keys : List (List Char)) (mapping : List (List Char × List Char))
    (s : List Char) : List Char :=
  acroSubAux keys mapping s.length none s

/-- The normalizer state: the lookup dictionary and, when a reference file
was configured, the compiled pattern (modelled by its ordered alternation
keys). -/
structure TextNormalizer where
  mapping : List (List Char × List Char)
  pattern : Option (List (List Char))

/-- Python dict assignment on an insertion-ordered association list: an
existing key keeps its position and gets the new value, a new key is
appended. -/
def insertAssoc (m : List (List Char × List Char)) (k v : List Char) :
    List (List Char × List Char) :=
  if (m.map Prod.fst).contains k then
    m.map (fun p => if p.1 = k then (k, v) else p)
  else m ++ [(k, v)]

/-- Processing of one reference-CSV row by `_load_data`: the row yields its
"Acronym" and "Definition" fields (absent fields read as `""`); non-empty
stripped fields become lowercase keys mapped to the uppercased acronym and
the as-given definition respectively. -/
def loadRow (m : List (List Char × List Char)) (row : String × String) :
    List (List Char × List Char) :=
  let acr := pyStrip row.1.data
  let defn := pyStrip row.2.data
  let m1 := if acr.isEmpty then m else insertAssoc m (lowerL acr) (acr.map Char.toUpper)
  if defn.isEmpty then m1 else insertAssoc m1 (lowerL defn) defn

def buildMapping (rows : List (String × String)) : List (List Char × List Char) :=
  rows.foldl loadRow []

/-- Stable insertion into a list sorted by descending length: the new
element goes before the first element of not-greater length, so elements of
equal length keep their original relative order. -/
def insertByLen (x : List Char) : List (List Char) → List (List Char)
  | [] => [x]
  | y :: ys => if x.length < y.length then y :: insertByLen x ys else x :: y :: ys

/-- Embedding of `sorted(keys, key=len, reverse=True)`: a stable sort by
descending length. -/
def sortKeysDesc (ks : List (List Char)) : List (List Char) :=
  ks.foldr insertByLen []

/-- Embedding of `_load_data`: build the dictionary, then the pattern from
the keys sorted longest-first. -/
def TextNormalizer.load (rows : List (String × String)) : TextNormalizer :=
  let mapping := buildMapping rows
  { mapping := mapping, pattern := some (sortKeysDesc (mapping.map Prod.fst)) }

/-- Embedding of `TextNormalizer.__init__`: with no reference file the
dictionary is empty and no pattern is compiled. -/
def TextNormalizer.init (csvRows : Option (List (String × String))) : TextNormalizer :=
  match csvRows with
  | none => { mapping := [], pattern := none }
  | some rows => TextNormalizer.load rows

/-- Embedding of `TextNormalizer.normalize`: sentence-case, then substitute
via the compiled pattern when one exists. -/
def TextNormalizer.normalizeL (tn : TextNormalizer) (currentYear : Nat)
    (text : List Char) : List Char :=
  let s := sentenceCaseL currentYear text
  match tn.pattern with
  | none => s
  | some keys => acroSub keys tn.mapping s

def TextNormalizer.normalize (tn : TextNormalizer) (currentYear : Nat)
    (text : String) : String :=
  String.mk (tn.normalizeL currentYear text.data)

/-! ### RowSanitizer (`_sanitize_row`) and the per-line pipeline -/

def swapStep (row : List String) : List String :=
  if 7 < row.length then (row.set 6 (row.getD 7 "")).set 7 (row.getD 6 "") else row

def stripIndices : List Nat := [0, 3, 6, 7, 8, 9, 13, 14]

def stripStep (row : List String) : List String :=
  stripIndices.foldl
    (fun r i =>
      if i < r.length then r.set i (String.mk (stripQuotes (r.getD i "").data)) else r)
    row

def titleStep (row : List String) : List String :=
  if 0 < row.length then row.set 0 (String.mk (pyTitle (row.getD 0 "").data)) else row

def normalizeStep (tn : TextNormalizer) (currentYear : Nat) (row : List String) :
    List String :=
  if 14 < row.length then
    row.set 14 (String.mk (tn.normalizeL currentYear (row.getD 14 "").data))
  else row

/-- Embedding of `_sanitize_row` (the in-place mutation is modelled by
returning the updated row). -/
def sanitizeRow (tn : TextNormalizer) (currentYear : Nat) (row : List String) :
    List String :=
  normalizeStep tn currentYear (titleStep (stripStep (swapStep row)))

/-- Python `line.split("\t")`: split on every tab, keeping empty pieces; the
empty string yields `[""]`. -/
def splitTabAux : List Char → List Char → List String
  | [], acc => [String.mk acc.reverse]
  | c :: cs, acc =>
      if c = '\t' then String.mk acc.reverse :: splitTabAux cs []
      else splitTabAux cs (c :: acc)

def splitTab (line : String) : List String := splitTabAux line.data []

/-- Embedding of the data-row branch of `fetch_and_save_data`: split the raw
line on tabs, resolve the district from the original field 3 when present,
sanitize, and prepend the state and district columns. -/
def processDataLine (tn : TextNormalizer) (currentYear : Nat) (stCode : String)
    (line : String) : List String :=
  let rawData := splitTab line
  let districtStr :=
    if 3 < rawData.length then determineDistrict stCode (rawData.getD 3 "") else ""
  [stCode, districtStr] ++ sanitizeRow tn currentYear rawData

/-! ### Step lemmas for the sanitizer -/

theorem swapStep_length (row : List String) : (swapStep row).length = row.length := by
  unfold swapStep
  split <;> simp

theorem stripFold_length (idxs : List Nat) (row : List String) :
    (idxs.foldl
      (fun r i =>
        if i < r.length then r.set i (String.mk (stripQuotes (r.getD i "").data)) else r)
      row).length = row.length := by
  induction idxs generalizing row with
  | nil => rfl
  | cons i is ih =>
      simp only [List.foldl_cons]
      rw [ih]
      split <;> simp

theorem stripStep_length (row : List String) : (stripStep row).length = row.length :=
  stripFold_length stripIndices row

theorem titleStep_length (row : List String) : (titleStep row).length = row.length := by
  unfold titleStep
  split <;> simp

theorem normalizeStep_length (tn : TextNormalizer) (y : Nat) (row : List String) :
    (normalizeStep tn y row).length = row.length := by
  unfold normalizeStep
  split <;> simp

theorem sanitizeRow_length (tn : TextNormalizer) (y : Nat) (row : List String) :
    (sanitizeRow tn y row).length = row.length := by
  unfold sanitizeRow
  rw [normalizeStep_length, titleStep_length, stripStep_length, swapStep_length]

theorem swapStep_frame (row : List String) (i : Nat) (h6 : i ≠ 6) (h7 : i ≠ 7) :
    (swapStep row)[i]? = row[i]? := by
  unfold swapStep
  split
  · rw [List.getElem?_set_ne (Ne.symm h7), List.getElem?_set_ne (Ne.symm h6)]
  · rfl

theorem stripFold_frame (idxs : List Nat) (row : List String) (i : Nat) (h : i ∉ idxs) :
    (idxs.foldl
      (fun r j =>
        if j < r.length then r.set j (String.mk (stripQuotes (r.getD j "").data)) else r)
      row)[i]? = row[i]? := by
  induction idxs generalizing row with
  | nil => rfl
  | cons j js ih =>
      simp only [List.foldl_cons]
      have hj : i ≠ j := fun hh => h (hh ▸ List.mem_cons_self j js)
      have hjs : i ∉ js := fun hh => h (List.mem_cons_of_mem j hh)
      rw [ih _ hjs]
      split
      · rw [List.getElem?_set_ne (Ne.symm hj)]
      · rfl

theorem stripStep_frame (row : List String) (i : Nat) (h : i ∉ stripIndices) :
    (stripStep row)[i]? = row[i]? :=
  stripFold_frame stripIndices row i h

theorem titleStep_frame (row : List String) (i : Nat) (h : i ≠ 0) :
    (titleStep row)[i]? = row[i]? := by
  unfold titleStep
  split
  · rw [List.getElem?_set_ne (Ne.symm h)]
  · rfl

theorem normalizeStep_frame (tn : TextNormalizer) (y : Nat) (row : List String)
    (i : Nat) (h : i ≠ 14) : (normalizeStep tn y row)[i]? = row[i]? := by
  unfold normalizeStep
  split
  · rw [List.getElem?_set_ne (Ne.symm h)]
  · rfl

/-! ### DistrictResolver: the claim-side description -/

/-- Modelled from the claim wording for C1: at-large states go to `XX-00`;
otherwise, when the place of performance has at least 4 characters and the
characters at positions `length-4` and `length-3` are both digits whose
two-digit numeric value is non-zero, the result is the state code joined to
those two digits; otherwise the empty string. -/
def districtSpec (stCode : String) (placeOfPerformance : String) : String :=
  if stCode ∈ atLargeStates then stCode ++ "-00"
  else
    let l := placeOfPerformance.data
    let c1 := l.getD (l.length - 4) ' '
    let c2 := l.getD (l.length - 3) ' '
    if 4 ≤ l.length ∧ isDigitB c1 ∧ isDigitB c2 ∧ digitsToNat [c1, c2] ≠ 0 then
      stCode ++ "-" ++ String.mk [c1, c2]
    else ""

theorem slice_pair (l : List Char) (h : 4 ≤ l.length) :
    (l.drop (l.length - 4)).take 2 =
      [l.getD (l.length - 4) ' ', l.getD (l.length - 3) ' '] := by
  have h4 : l.length - 4 < l.length := by omega
  have h3 : l.length - 3 < l.length := by omega
  rw [List.drop_eq_getElem_cons h4]
  have he : l.length - 4 + 1 = l.length - 3 := by omega
  rw [he, List.drop_eq_getElem_cons h3]
  simp only [List.getD_eq_getElem?_getD, List.getElem?_eq_getElem, h3, h4]
  rfl

/-! ### Claim theorems: district, pipeline, sanitizer -/

/-- C1: for every state code and every place-of-performance string, the
district resolver returns `<st>-00` for the fixed at-large set; otherwise,
when the string has at least 4 characters and the two characters at
positions `length-4` and `length-3` are digits of non-zero joint value, it
returns `<st>-<those two digits>`; in every other case it returns `""`. -/
theorem determineDistrict_eq_districtSpec (st p : String) :
    determineDistrict st p = districtSpec st p := by
  unfold determineDistrict districtSpec
  by_cases hs : st ∈ atLargeStates
  · rw [if_pos hs, if_pos hs]
  · rw [if_neg hs, if_neg hs]
    by_cases hl : 4 ≤ p.data.length
    · rw [if_pos hl, slice_pair p.data hl]
      have hall : ([p.data.getD (p.data.length - 4) ' ',
            p.data.getD (p.data.length - 3) ' '].all isDigitB = true) ↔
          (isDigitB (p.data.getD (p.data.length - 4) ' ') = true ∧
           isDigitB (p.data.getD (p.data.length - 3) ' ') = true) := by
        simp only [List.all_cons, List.all_nil, Bool.and_true, Bool.and_eq_true]
      by_cases hd : isDigitB (p.data.getD (p.data.length - 4) ' ') = true ∧
          isDigitB (p.data.getD (p.data.length - 3) ' ') = true ∧
          digitsToNat [p.data.getD (p.data.length - 4) ' ',
            p.data.getD (p.data.length - 3) ' '] ≠ 0
      · rw [if_pos ⟨hall.mpr ⟨hd.1, hd.2.1⟩, hd.2.2⟩, if_pos ⟨hl, hd⟩]
      · rw [if_neg (fun hcontr => hd ⟨(hall.mp hcontr.1).1, (hall.mp hcontr.1).2, hcontr.2⟩),
          if_neg (fun hcontr => hd hcontr.2)]
    · rw [if_neg hl, if_neg (fun hcontr => hl hcontr.1)]

/-- C2 (exhibiting the fiscal-year defect): with the current year 2026 the
fiscal-year loop of `_sentence_case` only installs the token `fy26`, so the
standalone word `fy05` is not rewritten to `FY05`: sentence-casing yields
`Fy05`.  Also the abbreviation table itself contains no `fy05` entry. -/
theorem sentenceCase_fy05_not_fixed :
    sentenceCase 2026 "fy05" = "Fy05" ∧ sentenceCase 2026 "fy05" ≠ "FY05" ∧
      abbreviationFixes 2026 =
        [("u.s.".data, "U.S.".data), ("ii".data, "II".data), ("iii".data, "III".data),
         ("fy26".data, "FY26".data)] := by
  refine ⟨by decide, by decide, by decide⟩

/-- C3: each data row is emitted as the state code, then the district
resolved from the original (pre-sanitization) field 3 when present, then the
sanitized tab-split record; on the end-to-end example line for state WA this
produces exactly the listed 17-element row. -/
theorem processDataLine_shape :
    (∀ (tn : TextNormalizer) (y : Nat) (st line : String),
      processDataLine tn y st line =
        [st,
         if 3 < (splitTab line).length then
           determineDistrict st ((splitTab line).getD 3 "")
         else ""] ++ sanitizeRow tn y (splitTab line)) ∧
    processDataLine (TextNormalizer.init none) 2026 "WA"
      "lockheed martin\tignore\tignore\tSEATTLE07XX\tignore\tignore\tTypeA\tTypeB\to1\to2\tp\tq\tr\tpoc\tTHE mission WAS A success."
      = ["WA", "WA-07", "Lockheed Martin", "ignore", "ignore", "SEATTLE07XX", "ignore",
         "ignore", "TypeB", "TypeA", "o1", "o2", "p", "q", "r", "poc",
         "The mission was a success."] := by
  refine ⟨fun tn y st line => rfl, by decide⟩

/-- C6: with no reference file configured the normalizer state has an empty
mapping and no compiled pattern, and normalization coincides with
sentence-casing on every input. -/
theorem normalize_no_reference :
    (TextNormalizer.init none).mapping = [] ∧
    (TextNormalizer.init none).pattern = none ∧
    ∀ (y : Nat) (t : List Char),
      (TextNormalizer.init none).normalizeL y t = sentenceCaseL y t :=
  ⟨rfl, rfl, fun _ _ => rfl⟩

/-- C7: rows longer than 7 fields get fields 6 and 7 exchanged by the swap
step (all other fields untouched); rows of at most 7 fields are unchanged by
it; the 8-field example row sanitizes with `TypeB`/`TypeA` exchanged. -/
theorem sanitize_swap_67 :
    (∀ row : List String, 7 < row.length →
      (swapStep row)[6]? = row[7]? ∧ (swapStep row)[7]? = row[6]? ∧
      ∀ i : Nat, i ≠ 6 → i ≠ 7 → (swapStep row)[i]? = row[i]?) ∧
    (∀ row : List String, row.length ≤ 7 → swapStep row = row) ∧
    sanitizeRow (TextNormalizer.init none) 2026
      ["Acme", "X", "Y", "Z", "A", "B", "TypeA", "TypeB"]
      = ["Acme", "X", "Y", "Z", "A", "B", "TypeB", "TypeA"] := by
  refine ⟨fun row h => ?_, fun row h => ?_, by decide⟩
  · have h6 : 6 < row.length := by omega
    have h7 : 7 < row.length := h
    refine ⟨?_, ?_, fun i hi6 hi7 => swapStep_frame row i hi6 hi7⟩
    · unfold swapStep
      rw [if_pos h]
      rw [List.getElem?_set_ne (by omega), List.getElem?_set_self (by simpa using h6)]
      simp [List.getD_eq_getElem?_getD, List.getElem?_eq_getElem, h7]
    · unfold swapStep
      rw [if_pos h]
      rw [List.getElem?_set_self (by simpa using h7)]
      simp [List.getD_eq_getElem?_getD, List.getElem?_eq_getElem, h6]
  · unfold swapStep
    rw [if_neg (by omega)]

/-- C7 witness: the swap characterization applied to the concrete 8-field
row. -/
theorem sanitize_swap_67_witness :
    (swapStep ["Acme", "X", "Y", "Z", "A", "B", "TypeA", "TypeB"])[6]?
      = (["Acme", "X", "Y", "Z", "A", "B", "TypeA", "TypeB"] : List String)[7]? :=
  (sanitize_swap_67.1 ["Acme", "X", "Y", "Z", "A", "B", "TypeA", "TypeB"]
    (by decide)).1

/-- C8: sanitization is total and degrades gracefully: the empty row passes
through unchanged, the swap step is the identity on rows of at most 7
fields, the description-normalization step is the identity on rows of at
most 14 fields, length is always preserved, and a too-short row receives
only the applicable transformations. -/
theorem sanitize_short_rows :
    (∀ (tn : TextNormalizer) (y : Nat), sanitizeRow tn y [] = []) ∧
    (∀ row : List String, row.length ≤ 7 → swapStep row = row) ∧
    (∀ (tn : TextNormalizer) (y : Nat) (row : List String), row.length ≤ 14 →
      normalizeStep tn y row = row) ∧
    (∀ (tn : TextNormalizer) (y : Nat) (row : List String),
      (sanitizeRow tn y row).length = row.length) ∧
    (∀ (tn : TextNormalizer) (y : Nat) (row : List String), row.length ≤ 7 →
      sanitizeRow tn y row = titleStep (stripStep row)) ∧
    (∀ (tn : TextNormalizer) (y : Nat) (row : List String), row.length ≤ 14 →
      sanitizeRow tn y row = titleStep (stripStep (swapStep row))) := by
  have hswap : ∀ row : List String, row.length ≤ 7 → swapStep row = row := by
    intro row h
    unfold swapStep
    rw [if_neg (by omega)]
  have hnorm : ∀ (tn : TextNormalizer) (y : Nat) (row : List String),
      row.length ≤ 14 → normalizeStep tn y row = row := by
    intro tn y row h
    unfold normalizeStep
    rw [if_neg (by omega)]
  refine ⟨fun tn y => rfl, hswap, hnorm, sanitizeRow_length, ?_, ?_⟩
  · intro tn y row h
    unfold sanitizeRow
    rw [hswap row h, hnorm]
    rw [titleStep_length, stripStep_length]
    omega
  · intro tn y row h
    unfold sanitizeRow
    rw [hnorm]
    rw [titleStep_length, stripStep_length, swapStep_length]
    omega

/-- C8 witness: the short-row pass-through applied to a concrete 3-field
row. -/
theorem sanitize_short_rows_witness :
    sanitizeRow (TextNormalizer.init none) 2026 ["a", "b", "c"] =
      titleStep (stripStep ["a", "b", "c"]) :=
  sanitize_short_rows.2.2.2.2.1 (TextNormalizer.init none) 2026 ["a", "b", "c"]
    (by decide)

/-- C10: sanitization preserves the number of fields, and every field at an
index outside the touched set {0, 3, 6, 7, 8, 9, 13, 14} is left unchanged. -/
theorem sanitize_frame (tn : TextNormalizer) (y : Nat) (row : List String) :
    (sanitizeRow tn y row).length = row.length ∧
    ∀ i : Nat, i ∉ stripIndices → (sanitizeRow tn y row)[i]? = row[i]? := by
  refine ⟨sanitizeRow_length tn y row, fun i hi => ?_⟩
  have h0 : i ≠ 0 := fun h => hi (h ▸ (by decide))
  have h3 : i ≠ 3 := fun h => hi (h ▸ (by decide))
  have h6 : i ≠ 6 := fun h => hi (h ▸ (by decide))
  have h7 : i ≠ 7 := fun h => hi (h ▸ (by decide))
  have h14 : i ≠ 14 := fun h => hi (h ▸ (by decide))
  unfold sanitizeRow
  rw [normalizeStep_frame _ _ _ _ h14, titleStep_frame _ _ h0,
    stripStep_frame _ _ hi, swapStep_frame _ _ h6 h7]

/-- C10 witness: index 2 of a concrete row is untouched by sanitization. -/
theorem sanitize_frame_witness :
    (sanitizeRow (TextNormalizer.init none) 2026
      ["a", "b", "keep", "d", "e", "f", "g", "h"]).length
      = (["a", "b", "keep", "d", "e", "f", "g", "h"] : List String).length ∧
    (sanitizeRow (TextNormalizer.init none) 2026
      ["a", "b", "keep", "d", "e", "f", "g", "h"])[2]?
      = (["a", "b", "keep", "d", "e", "f", "g", "h"] : List String)[2]? :=
  ⟨(sanitize_frame (TextNormalizer.init none) 2026
      ["a", "b", "keep", "d", "e", "f", "g", "h"]).1,
   (sanitize_frame (TextNormalizer.init none) 2026
      ["a", "b", "keep", "d", "e", "f", "g", "h"]).2 2 (by decide)⟩

/-! ### Matching characterization and loader invariants -/

theorem lowerL_idem (s : List Char) : lowerL (lowerL s) = lowerL s := by
  simp only [lowerL, List.map_map]
  exact List.map_congr_left fun c _ => toLower_toLower c

theorem lowerL_map_toUpper (s : List Char) : lowerL (s.map Char.toUpper) = lowerL s := by
  simp only [lowerL, List.map_map]
  exact List.map_congr_left fun c _ => toLower_toUpper c

theorem lowerL_cons (c : Char) (cs : List Char) :
    lowerL (c :: cs) = c.toLower :: lowerL cs := rfl

theorem matchPrefixCI_some {p : List Char} :
    ∀ {s r : List Char}, matchPrefixCI p s = some r →
      lowerL s = lowerL p ++ lowerL r ∧ r = s.drop p.length := by
  induction p with
  | nil =>
      intro s r h
      simp only [matchPrefixCI, Option.some_inj] at h
      subst h
      simp [lowerL]
  | cons a ps ih =>
      intro s r h
      cases s with
      | nil => exact absurd h (by simp [matchPrefixCI])
      | cons c cs =>
          simp only [matchPrefixCI] at h
          split at h
          · obtain ⟨h1, h2⟩ := ih h
            refine ⟨?_, by simpa using h2⟩
            rw [lowerL_cons, lowerL_cons, List.cons_append,
              show Char.toLower a = Char.toLower c from by assumption, h1]
          · exact absurd h (by simp)

theorem matchPrefixCI_length {p s r : List Char} (h : matchPrefixCI p s = some r) :
    p.length ≤ s.length ∧ r.length = s.length - p.length := by
  obtain ⟨h1, h2⟩ := matchPrefixCI_some h
  have hlen : s.length = p.length + r.length := by
    have h3 := congrArg List.length h1
    simpa [lowerL] using h3
  exact ⟨by omega, by omega⟩

theorem tryKeysAt_some {keys : List (List Char)} {s m r : List Char}
    (h : tryKeysAt keys s = some (m, r)) :
    ∃ k ∈ keys, matchPrefixCI k s = some r ∧ m = s.take k.length ∧
      alnumOpt r.head? = false := by
  induction keys with
  | nil => exact absurd h (by simp [tryKeysAt])
  | cons k ks ih =>
      simp only [tryKeysAt] at h
      cases hm : matchPrefixCI k s with
      | none =>
          simp only [hm] at h
          obtain ⟨k', hk', hrest⟩ := ih h
          exact ⟨k', List.mem_cons_of_mem _ hk', hrest⟩
      | some rest =>
          simp only [hm] at h
          by_cases ha : alnumOpt rest.head? = true
          · rw [if_pos ha] at h
            obtain ⟨k', hk', hrest⟩ := ih h
            exact ⟨k', List.mem_cons_of_mem _ hk', hrest⟩
          · rw [if_neg ha, Option.some_inj] at h
            have h1 : s.take k.length = m := congrArg Prod.fst h
            have h2 : rest = r := congrArg Prod.snd h
            subst h2
            exact ⟨k, List.mem_cons_self _ _, hm, h1.symm, by simpa using ha⟩

/-- The lowercased matched portion is exactly the (lowercased) key that
matched. -/
theorem tryKeysAt_matched_lower {keys : List (List Char)} {s m r : List Char}
    (h : tryKeysAt keys s = some (m, r)) :
    ∃ k ∈ keys, lowerL m = lowerL k := by
  obtain ⟨k, hk, hmatch, hm, _⟩ := tryKeysAt_some h
  refine ⟨k, hk, ?_⟩
  obtain ⟨h1, _⟩ := matchPrefixCI_some hmatch
  have : lowerL m = (lowerL s).take k.length := by
    rw [hm]
    simp [lowerL, List.map_take]
  rw [this, h1, List.take_left' (by simp [lowerL])]

theorem lookupA_isSome_of_mem {m : List (List Char × List Char)} {k : List Char}
    (h : k ∈ m.map Prod.fst) : (lookupA m k).isSome = true := by
  induction m with
  | nil => simp at h
  | cons p ps ih =>
      simp only [List.map_cons, List.mem_cons] at h
      unfold lookupA
      rcases h with h | h
      · rw [if_pos h.symm]
        rfl
      · split
        · rfl
        · exact ih h

theorem lookupA_mem {m : List (List Char × List Char)} {k v : List Char}
    (h : lookupA m k = some v) : (k, v) ∈ m := by
  induction m with
  | nil => exact absurd h (by simp [lookupA])
  | cons p ps ih =>
      obtain ⟨pk, pv⟩ := p
      unfold lookupA at h
      split at h
      · have hv : pv = v := by injection h
        have hk : pk = k := by assumption
        rw [← hk, ← hv]
        exact List.mem_cons_self _ _
      · exact List.mem_cons_of_mem _ (ih h)

theorem mem_insertAssoc {m : List (List Char × List Char)} {k v : List Char}
    {p : List Char × List Char} (h : p ∈ insertAssoc m k v) : p ∈ m ∨ p = (k, v) := by
  unfold insertAssoc at h
  split at h
  · obtain ⟨q, hq, hqe⟩ := List.mem_map.mp h
    by_cases hqk : q.1 = k
    · rw [if_pos hqk] at hqe
      right
      exact hqe.symm
    · rw [if_neg hqk] at hqe
      left
      exact hqe ▸ hq
  · rcases List.mem_append.mp h with h1 | h1
    · exact Or.inl h1
    · right
      simpa using h1

/-- Every mapping entry built by `_load_data` has a value whose lowercased
form is exactly its key: acronyms are stored as
`key = acronym.lower(), value = acronym.upper()`, definitions as
`key = definition.lower(), value = definition`. -/
theorem loadRow_invariant {m : List (List Char × List Char)} (row : String × String)
    (hm : ∀ p ∈ m, lowerL p.2 = p.1) :
    ∀ p ∈ loadRow m row, lowerL p.2 = p.1 := by
  intro p hp
  simp only [loadRow] at hp
  have step1 : ∀ q ∈ (if (pyStrip row.1.data).isEmpty then m
      else insertAssoc m (lowerL (pyStrip row.1.data))
        ((pyStrip row.1.data).map Char.toUpper)), lowerL q.2 = q.1 := by
    intro q hq
    split at hq
    · exact hm q hq
    · rcases mem_insertAssoc hq with h1 | h1
      · exact hm q h1
      · rw [h1]
        exact lowerL_map_toUpper _
  split at hp
  · exact step1 p hp
  · rcases mem_insertAssoc hp with h1 | h1
    · exact step1 p h1
    · rw [h1]

theorem buildMapping_invariant (rows : List (String × String)) :
    ∀ p ∈ buildMapping rows, lowerL p.2 = p.1 := by
  have general : ∀ (rs : List (String × String)) (m : List (List Char × List Char)),
      (∀ p ∈ m, lowerL p.2 = p.1) → ∀ p ∈ rs.foldl loadRow m, lowerL p.2 = p.1 := by
    intro rs
    induction rs with
    | nil => intro m hm; simpa using hm
    | cons row rest ih =>
        intro m hm
        exact ih (loadRow m row) (loadRow_invariant row hm)
  exact general rows [] (by simp)

/-- Keys built by `_load_data` are lowercase (fixed by `lowerL`). -/
theorem buildMapping_keys_lower (rows : List (String × String)) :
    ∀ k ∈ (buildMapping rows).map Prod.fst, lowerL k = k := by
  intro k hk
  obtain ⟨p, hp, hpe⟩ := List.mem_map.mp hk
  have := buildMapping_invariant rows p hp
  rw [← hpe, ← this, lowerL_idem, this]

theorem mem_insertByLen {x y : List Char} {l : List (List Char)}
    (h : x ∈ insertByLen y l) : x = y ∨ x ∈ l := by
  induction l with
  | nil => simpa [insertByLen] using h
  | cons z zs ih =>
      unfold insertByLen at h
      split at h
      · rcases List.mem_cons.mp h with h1 | h1
        · exact Or.inr (h1 ▸ List.mem_cons_self _ _)
        · rcases ih h1 with h2 | h2
          · exact Or.inl h2
          · exact Or.inr (List.mem_cons_of_mem _ h2)
      · simpa using h

theorem mem_sortKeysDesc {k : List Char} {l : List (List Char)}
    (h : k ∈ sortKeysDesc l) : k ∈ l := by
  induction l with
  | nil => simp [sortKeysDesc] at h
  | cons x xs ih =>
      have h' : k ∈ insertByLen x (sortKeysDesc xs) := h
      rcases mem_insertByLen h' with h1 | h1
      · exact h1 ▸ List.mem_cons_self _ _
      · exact List.mem_cons_of_mem _ (ih h1)

/-- C9: for a normalizer loaded from any reference rows, every substring the
compiled pattern matches has its lowercased form present as a mapping key,
so the dictionary lookup in the replacement function always succeeds and the
fallback branch returning the matched text unchanged is unreachable. -/
theorem matched_text_always_in_mapping (rows : List (String × String))
    (keys : List (List Char)) (s m r : List Char)
    (hpat : (TextNormalizer.load rows).pattern = some keys)
    (hmatch : tryKeysAt keys s = some (m, r)) :
    lowerL m ∈ (TextNormalizer.load rows).mapping.map Prod.fst ∧
      (lookupA (TextNormalizer.load rows).mapping (lowerL m)).isSome = true := by
  have hkeys : keys = sortKeysDesc ((buildMapping rows).map Prod.fst) := by
    have : (TextNormalizer.load rows).pattern
        = some (sortKeysDesc ((buildMapping rows).map Prod.fst)) := rfl
    rw [this] at hpat
    injection hpat with h
    exact h.symm
  obtain ⟨k, hk, hkl⟩ := tryKeysAt_matched_lower hmatch
  have hkmem : k ∈ (buildMapping rows).map Prod.fst :=
    mem_sortKeysDesc (hkeys ▸ hk)
  have hklow : lowerL k = k := buildMapping_keys_lower rows k hkmem
  have hmem : lowerL m ∈ (buildMapping rows).map Prod.fst := by
    rw [hkl, hklow]
    exact hkmem
  exact ⟨hmem, lookupA_isSome_of_mem hmem⟩

/-- C9 witness: for the normalizer loaded from one acronym row, the pattern
match on a concrete text has its lowercased match in the mapping. -/
theorem matched_text_always_in_mapping_witness :
    lowerL "NASA".data ∈ (TextNormalizer.load [("NASA", "")]).mapping.map Prod.fst ∧
      (lookupA (TextNormalizer.load [("NASA", "")]).mapping
        (lowerL "NASA".data)).isSome = true :=
  matched_text_always_in_mapping [("NASA", "")] ["nasa".data] "NASA!".data
    "NASA".data "!".data (by decide) (by decide)

/-! ### Substitution preserves the lowercase image -/

theorem lowerL_append (a b : List Char) : lowerL (a ++ b) = lowerL a ++ lowerL b := by
  simp [lowerL]

theorem lowerL_length (s : List Char) : (lowerL s).length = s.length := by
  simp [lowerL]

/-- The lowercased matched portion equals the lowercased pattern. -/
theorem matched_lower_eq {k s m r : List Char} (hmatch : matchPrefixCI k s = some r)
    (hm : m = s.take k.length) : lowerL m = lowerL k := by
  obtain ⟨h1, _⟩ := matchPrefixCI_some hmatch
  have ht : lowerL m = (lowerL s).take k.length := by
    rw [hm]
    simp [lowerL, List.map_take]
  rw [ht, h1, List.take_left' (by simp [lowerL])]

theorem subWordAux_lower (pat rep : List Char) (hrep : lowerL rep = lowerL pat) :
    ∀ (fuel : Nat) (prev : Option Char) (s : List Char),
      lowerL (subWordAux pat rep fuel prev s) = lowerL s := by
  intro fuel
  induction fuel with
  | zero => intro prev s; rfl
  | succ n ih =>
      intro prev s
      cases s with
      | nil => rfl
      | cons c cs =>
          simp only [subWordAux]
          cases hm : matchPrefixCI pat (c :: cs) with
          | none =>
              simp only [hm]
              rw [lowerL_cons, lowerL_cons, ih]
          | some rest =>
              simp only [hm]
              split
              · obtain ⟨h1, _⟩ := matchPrefixCI_some hm
                rw [lowerL_append, ih, hrep, h1]
              · rw [lowerL_cons, lowerL_cons, ih]

theorem subWordCI_lower (pat rep s : List Char) (hrep : lowerL rep = lowerL pat) :
    lowerL (subWordCI pat rep s) = lowerL s :=
  subWordAux_lower pat rep hrep s.length none s

theorem abbreviationFixes_lower (y : Nat) :
    ∀ pr ∈ abbreviationFixes y, lowerL pr.2 = lowerL pr.1 := by
  intro pr hpr
  unfold abbreviationFixes at hpr
  rcases List.mem_append.mp hpr with h | h
  · simp only [List.mem_cons, List.not_mem_nil, or_false] at h
    rcases h with h | h | h <;> subst h <;> decide
  · split at h
    · simp only [List.mem_singleton] at h
      subst h
      rw [lowerL_cons, lowerL_cons, lowerL_cons, lowerL_cons,
        show 'F'.toLower = 'f'.toLower from by decide,
        show 'Y'.toLower = 'y'.toLower from by decide]
    · simp at h

theorem applyFixes_lower (y : Nat) (s : List Char) :
    lowerL (applyFixes y s) = lowerL s := by
  have general : ∀ (l : List (List Char × List Char)),
      (∀ pr ∈ l, lowerL pr.2 = lowerL pr.1) → ∀ u : List Char,
        lowerL (l.foldl (fun acc pr => subWordCI pr.1 pr.2 acc) u) = lowerL u := by
    intro l
    induction l with
    | nil => intro _ u; rfl
    | cons pr rest ih =>
        intro hl u
        simp only [List.foldl_cons]
        rw [ih (fun q hq => hl q (List.mem_cons_of_mem _ hq)),
          subWordCI_lower _ _ _ (hl pr (List.mem_cons_self _ _))]
  exact general _ (abbreviationFixes_lower y) s

theorem acroSubAux_lower (keys : List (List Char))
    (mapping : List (List Char × List Char))
    (hmap : ∀ p ∈ mapping, lowerL p.2 = p.1) :
    ∀ (fuel : Nat) (prev : Option Char) (s : List Char),
      lowerL (acroSubAux keys mapping fuel prev s) = lowerL s := by
  intro fuel
  induction fuel with
  | zero => intro prev s; rfl
  | succ n ih =>
      intro prev s
      cases s with
      | nil => rfl
      | cons c cs =>
          simp only [acroSubAux]
          split
          · rw [lowerL_cons, lowerL_cons, ih]
          · cases ht : tryKeysAt keys (c :: cs) with
            | none =>
                simp only [ht]
                rw [lowerL_cons, lowerL_cons, ih]
            | some pr =>
                obtain ⟨m, rest⟩ := pr
                simp only [ht]
                rw [lowerL_append, ih]
                obtain ⟨k, _, hmatch, hmtake, _⟩ := tryKeysAt_some ht
                obtain ⟨h1, _⟩ := matchPrefixCI_some hmatch
                have hml : lowerL m = lowerL k := matched_lower_eq hmatch hmtake
                cases hl : lookupA mapping (lowerL m) with
                | none =>
                    simp only [hl, Option.getD_none]
                    rw [hml, h1]
                | some v =>
                    simp only [hl, Option.getD_some]
                    have hv : lowerL v = lowerL m := hmap _ (lookupA_mem hl)
                    rw [hv, hml, h1]

theorem acroSub_lower (keys : List (List Char)) (mapping : List (List Char × List Char))
    (hmap : ∀ p ∈ mapping, lowerL p.2 = p.1) (s : List Char) :
    lowerL (acroSub keys mapping s) = lowerL s :=
  acroSubAux_lower keys mapping hmap s.length none s

/-! ### Strip lemmas -/

theorem dropWhile_dropWhile (p : Char → Bool) (l : List Char) :
    (l.dropWhile p).dropWhile p = l.dropWhile p := by
  induction l with
  | nil => rfl
  | cons x xs ih =>
      rw [List.dropWhile_cons]
      split
      · exact ih
      · rw [List.dropWhile_cons, if_neg (by assumption)]

theorem dropWhile_eq_self_of_head (p : Char → Bool) (l : List Char)
    (h : ∀ x, l.head? = some x → p x = false) : l.dropWhile p = l := by
  cases l with
  | nil => rfl
  | cons x xs =>
      rw [List.dropWhile_cons, if_neg]
      simp [h x rfl]

theorem head_dropWhile_false (p : Char → Bool) (l : List Char) :
    ∀ x, (l.dropWhile p).head? = some x → p x = false := by
  induction l with
  | nil => intro x h; simp at h
  | cons y ys ih =>
      intro x h
      rw [List.dropWhile_cons] at h
      split at h
      · exact ih x h
      · have hx : y = x := by simpa using h
        have hy : ¬ p y = true := by assumption
        rw [← hx]
        simpa using hy

theorem getLast?_of_suffix {l₁ l₂ : List Char} (h : l₁ <:+ l₂) (hne : l₁ ≠ []) :
    l₂.getLast? = l₁.getLast? := by
  obtain ⟨t, rfl⟩ := h
  rw [List.getLast?_append]
  cases hl : l₁.getLast? with
  | none => exact absurd (List.getLast?_eq_none_iff.mp hl) hne
  | some x => rfl

theorem stripWith_idem (p : Char → Bool) (s : List Char) :
    stripWith p (stripWith p s) = stripWith p s := by
  unfold stripWith
  set A := s.dropWhile p with hA
  set B := A.reverse.dropWhile p with hB
  have h1 : B.reverse.dropWhile p = B.reverse := by
    apply dropWhile_eq_self_of_head
    intro x hx
    rw [List.head?_reverse] at hx
    by_cases hBnil : B = []
    · rw [hBnil] at hx
      simp at hx
    · have hBA : A.reverse.getLast? = B.getLast? :=
        getLast?_of_suffix (hB ▸ List.dropWhile_suffix p) hBnil
      have hAhead : A.head? = some x := by
        rw [← List.getLast?_reverse, hBA, hx]
      exact head_dropWhile_false p s x (hA ▸ hAhead)
  rw [h1, List.reverse_reverse, hB, dropWhile_dropWhile]

theorem stripWith_map_toLower (p : Char → Bool)
    (hp : ∀ c, p c.toLower = p c) (s : List Char) :
    stripWith p (lowerL s) = lowerL (stripWith p s) := by
  have hfun : (p ∘ Char.toLower) = p := funext fun c => by
    simp [Function.comp, hp c]
  unfold stripWith lowerL
  rw [List.dropWhile_map, hfun, ← List.map_reverse, List.dropWhile_map, hfun,
    ← List.map_reverse]

theorem pyStrip_lowerL (s : List Char) : pyStrip (lowerL s) = lowerL (pyStrip s) :=
  stripWith_map_toLower isSpaceChar isSpaceChar_toLower s

theorem pyStrip_idem (s : List Char) : pyStrip (pyStrip s) = pyStrip s :=
  stripWith_idem isSpaceChar s

/-! ### Sentence-casing congruence and idempotence -/

theorem sentenceCaseL_congr (y : Nat) {r s : List Char}
    (h : lowerL (pyStrip r) = lowerL (pyStrip s)) :
    sentenceCaseL y r = sentenceCaseL y s := by
  unfold sentenceCaseL
  by_cases he : (pyStrip r).isEmpty
  · have hr : pyStrip r = [] := List.isEmpty_iff.mp he
    have hs : pyStrip s = [] := by
      have h2 : lowerL (pyStrip s) = [] := by rw [← h, hr]; rfl
      exact List.map_eq_nil_iff.mp h2
    rw [if_pos he, if_pos (List.isEmpty_iff.mpr hs), hr, hs]
  · have hr : ¬ pyStrip r = [] := fun hh => he (List.isEmpty_iff.mpr hh)
    have hs : ¬ pyStrip s = [] := by
      intro hh
      apply hr
      have h2 : lowerL (pyStrip r) = [] := by rw [h, hh]; rfl
      exact List.map_eq_nil_iff.mp h2
    rw [if_neg he, if_neg (fun hh => hs (List.isEmpty_iff.mp hh)), h]

theorem sentenceCaseL_lower (y : Nat) (t : List Char) :
    lowerL (sentenceCaseL y t) = lowerL (pyStrip t) := by
  unfold sentenceCaseL
  by_cases he : (pyStrip t).isEmpty
  · rw [if_pos he, List.isEmpty_iff.mp he]
  · rw [if_neg he, applyFixes_lower]
    cases hc : pyStrip t with
    | nil => exact absurd (List.isEmpty_iff.mpr hc) he
    | cons c cs =>
        rw [lowerL_cons]
        show lowerL (c.toLower.toUpper :: lowerL cs) = c.toLower :: lowerL cs
        rw [lowerL_cons, toLower_toUpper, toLower_toLower, lowerL_idem]

theorem sentenceCaseL_idem (y : Nat) (t : List Char) :
    sentenceCaseL y (sentenceCaseL y t) = sentenceCaseL y t := by
  apply sentenceCaseL_congr
  rw [← pyStrip_lowerL, sentenceCaseL_lower, pyStrip_lowerL, pyStrip_idem]

/-! ### C4: idempotence of normalization -/

/-- C4: for every configured reference input (including none) and every
text, applying `normalize` twice gives the same result as applying it once,
both on the character-list core and on the `String` wrapper. -/
theorem normalize_idempotent (csvRows : Option (List (String × String))) (y : Nat) :
    (∀ t : List Char,
      (TextNormalizer.init csvRows).normalizeL y
          ((TextNormalizer.init csvRows).normalizeL y t)
        = (TextNormalizer.init csvRows).normalizeL y t) ∧
    (∀ t : String,
      (TextNormalizer.init csvRows).normalize y
          ((TextNormalizer.init csvRows).normalize y t)
        = (TextNormalizer.init csvRows).normalize y t) := by
  have core : ∀ t : List Char,
      (TextNormalizer.init csvRows).normalizeL y
          ((TextNormalizer.init csvRows).normalizeL y t)
        = (TextNormalizer.init csvRows).normalizeL y t := by
    intro t
    cases csvRows with
    | none =>
        show sentenceCaseL y (sentenceCaseL y t) = sentenceCaseL y t
        exact sentenceCaseL_idem y t
    | some rows =>
        have hmap : ∀ p ∈ (buildMapping rows), lowerL p.2 = p.1 :=
          buildMapping_invariant rows
        show acroSub (sortKeysDesc ((buildMapping rows).map Prod.fst)) (buildMapping rows)
            (sentenceCaseL y (acroSub (sortKeysDesc ((buildMapping rows).map Prod.fst))
              (buildMapping rows) (sentenceCaseL y t)))
          = acroSub (sortKeysDesc ((buildMapping rows).map Prod.fst)) (buildMapping rows)
            (sentenceCaseL y t)
        have hcongr : sentenceCaseL y
            (acroSub (sortKeysDesc ((buildMapping rows).map Prod.fst))
              (buildMapping rows) (sentenceCaseL y t)) = sentenceCaseL y t := by
          have hstep : sentenceCaseL y
              (acroSub (sortKeysDesc ((buildMapping rows).map Prod.fst))
                (buildMapping rows) (sentenceCaseL y t))
              = sentenceCaseL y (sentenceCaseL y t) := by
            apply sentenceCaseL_congr
            rw [← pyStrip_lowerL, acroSub_lower _ _ hmap, pyStrip_lowerL]
          rw [hstep, sentenceCaseL_idem]
        rw [hcongr]
  refine ⟨core, fun t => ?_⟩
  show String.mk ((TextNormalizer.init csvRows).normalizeL y
      (String.mk ((TextNormalizer.init csvRows).normalizeL y t.data)).data) = _
  rw [show ∀ l : List Char, (String.mk l).data = l from fun _ => rfl, core]
  rfl

/-! ### C5: longest-match precedence for the two-key example table -/

/-- The longer key of the C5 scenario. -/
def ssKey : List Char := "space station".data

/-- The shorter key of the C5 scenario. -/
def stKey : List Char := "station".data

/-- Canonical form attached to the longer key (distinct from the other). -/
def ssCanon : List Char := "SPACE STATION".data

/-- Canonical form attached to the shorter key. -/
def stCanon : List Char := "STATION".data

/-- The alternation keys after the longest-first sort. -/
def c5keys : List (List Char) := [ssKey, stKey]

def c5map : List (List Char × List Char) := [(ssKey, ssCanon), (stKey, stCanon)]

/-- The standalone occurrence in the text. -/
def phraseOcc : List Char := "Space Station".data

theorem lastOr_ne_nil {prev : Option Char} {a : List Char} (h : a ≠ []) :
    lastOr prev a = a.getLast? := by
  unfold lastOr
  cases hl : a.getLast? with
  | none => exact absurd (List.getLast?_eq_none_iff.mp hl) h
  | some d => rfl

theorem getLast?_drop_of_ne_nil {a : List Char} {j : Nat} (h : a.drop j ≠ []) :
    (a.drop j).getLast? = a.getLast? := by
  conv_rhs => rw [← List.take_append_drop j a]
  rw [List.getLast?_append]
  cases hl : (a.drop j).getLast? with
  | none => exact absurd (List.getLast?_eq_none_iff.mp hl) h
  | some d => rfl

/-- Scanning the table pattern at the phrase itself: the longer key matches
and wins, so the occurrence is replaced by its canonical form and the scan
resumes after it. -/
theorem acroSubAux_at_phrase (fuel : Nat) (prev : Option Char) (b : List Char)
    (hprev : alnumOpt prev = false) (hb : alnumOpt b.head? = false) :
    acroSubAux c5keys c5map (fuel + 1) prev (phraseOcc ++ b)
      = ssCanon ++ acroSubAux c5keys c5map fuel (some 'n') b := by
  have hmatch : matchPrefixCI ssKey (phraseOcc ++ b) = some b := rfl
  have htry : tryKeysAt c5keys (phraseOcc ++ b) = some (phraseOcc, b) := by
    show tryKeysAt (ssKey :: [stKey]) (phraseOcc ++ b) = _
    unfold tryKeysAt
    rw [hmatch]
    show (if alnumOpt b.head? = true then _ else some ((phraseOcc ++ b).take ssKey.length, b))
      = some (phraseOcc, b)
    rw [if_neg (by simp [hb]), List.take_append_of_le_length (by decide),
      show phraseOcc.take ssKey.length = phraseOcc from by decide]
  show acroSubAux c5keys c5map (fuel + 1) prev
      ('S' :: ("pace Station".data ++ b)) = _
  simp only [acroSubAux]
  rw [if_neg (by simp [hprev])]
  have htry' : tryKeysAt c5keys ('S' :: ("pace Station".data ++ b))
      = some (phraseOcc, b) := htry
  rw [htry']
  show (lookupA c5map (lowerL phraseOcc)).getD phraseOcc ++
      acroSubAux c5keys c5map fuel (lastOr prev phraseOcc) b = _
  rw [show lookupA c5map (lowerL phraseOcc) = some ssCanon from by decide,
    show lastOr prev phraseOcc = some 'n' from rfl]
  rfl

/-- No proper suffix of either (lowercased) key starts the lowercased
phrase: a pattern match can never straddle the phrase start. -/
theorem c5_no_border :
    (∀ j, j < 13 → 1 ≤ j →
      (lowerL ssKey).drop j ≠ (lowerL phraseOcc).take (ssKey.length - j)) ∧
    (∀ j, j < 7 → 1 ≤ j →
      (lowerL stKey).drop j ≠ (lowerL phraseOcc).take (stKey.length - j)) := by
  constructor <;> decide

theorem alnumOpt_some (c : Char) : alnumOpt (some c) = isAlnumB c := rfl

theorem mem_c5keys {k : List Char} (hk : k ∈ c5keys) : k = ssKey ∨ k = stKey := by
  simpa [c5keys] using hk

/-- A match of a table key starting inside `a` (at a suffix of length `m`,
`1 ≤ m`) cannot extend past the end of `a` into the phrase. -/
theorem c5_no_cross {k : List Char} (hk : k ∈ c5keys) {a b rest : List Char}
    (ha : 1 ≤ a.length)
    (hmatch : matchPrefixCI k (a ++ phraseOcc ++ b) = some rest) :
    k.length ≤ a.length := by
  by_contra hgt
  push_neg at hgt
  obtain ⟨h1, _⟩ := matchPrefixCI_some hmatch
  rw [List.append_assoc, lowerL_append, lowerL_append] at h1
  have hX : List.drop a.length (lowerL a ++ (lowerL phraseOcc ++ lowerL b))
      = lowerL phraseOcc ++ lowerL b :=
    List.drop_left' (by simp [lowerL])
  have hY : List.drop a.length (lowerL k ++ lowerL rest)
      = (lowerL k).drop a.length ++ lowerL rest :=
    List.drop_append_of_le_length (by simp only [lowerL_length]; omega)
  have h2 : lowerL phraseOcc ++ lowerL b
      = (lowerL k).drop a.length ++ lowerL rest := by
    rw [← hX, ← hY, h1]
  have h13 : phraseOcc.length = 13 := by decide
  have hss : ssKey.length = 13 := by decide
  have hst : stKey.length = 7 := by decide
  have hkl : k.length ≤ 13 := by
    rcases mem_c5keys hk with rfl | rfl <;> omega
  have hqlen : ((lowerL k).drop a.length).length = k.length - a.length := by
    simp [lowerL_length]
  have hq : (lowerL k).drop a.length
      = (lowerL phraseOcc).take (k.length - a.length) := by
    have t1 : ((lowerL k).drop a.length ++ lowerL rest).take (k.length - a.length)
        = (lowerL k).drop a.length := List.take_left' hqlen
    have t2 : (lowerL phraseOcc ++ lowerL b).take (k.length - a.length)
        = (lowerL phraseOcc).take (k.length - a.length) :=
      List.take_append_of_le_length (by simp only [lowerL_length]; omega)
    rw [← t1, ← h2, t2]
  rcases mem_c5keys hk with rfl | rfl
  · exact c5_no_border.1 a.length (by omega) (by omega) hq
  · exact c5_no_border.2 a.length (by omega) (by omega) hq

/-- A match of a table key cannot end exactly at the end of `a` either, since
both keys end in the alphanumeric letter `n` while the standalone condition
says the character before the phrase is not alphanumeric. -/
theorem c5_no_touch {k : List Char} (hk : k ∈ c5keys) {a b rest : List Char}
    (hlast : alnumOpt a.getLast? = false)
    (hmatch : matchPrefixCI k (a ++ phraseOcc ++ b) = some rest) :
    k.length ≠ a.length := by
  intro heq
  have hm : a = (a ++ phraseOcc ++ b).take k.length := by
    rw [heq, List.append_assoc, List.take_left]
  have hml : lowerL a = lowerL k := matched_lower_eq hmatch hm
  have hlastk : (lowerL k).getLast? = some 'n' := by
    rcases mem_c5keys hk with rfl | rfl <;> decide
  have hlasta : (lowerL a).getLast? = some 'n' := by rw [hml, hlastk]
  rw [show lowerL a = a.map Char.toLower from rfl, List.getLast?_map] at hlasta
  cases hga : a.getLast? with
  | none => rw [hga] at hlasta; simp at hlasta
  | some la =>
      rw [hga] at hlasta
      have hl2 : la.toLower = 'n' := by simpa using hlasta
      have hai : isAlnumB la = true := by
        rw [← isAlnumB_toLower, hl2]
        decide
      rw [hga, alnumOpt_some, hai] at hlast
      exact absurd hlast (by simp)

theorem lastOr_skip {prev : Option Char} {c : Char} {a' : List Char}
    (h : alnumOpt (lastOr prev (c :: a')) = false) :
    alnumOpt (lastOr (some c) a') = false := by
  cases a' with
  | nil =>
      have h1 : lastOr prev [c] = some c := by
        rw [lastOr_ne_nil (by simp)]
        rfl
      rw [h1] at h
      simpa [lastOr] using h
  | cons d a'' =>
      rw [lastOr_ne_nil (by simp)] at h ⊢
      rwa [List.getLast?_cons_cons] at h

/-- Scanning from any safe prefix `a` (one whose final character, or
the previous character when `a` is empty, is not alphanumeric) reaches the
standalone phrase intact and replaces it by the canonical form of the longer
key, at exactly the position where the phrase stood. -/
theorem acroSubAux_safe_context (b : List Char) (hb : alnumOpt b.head? = false) :
    ∀ (fuel : Nat) (prev : Option Char) (a : List Char),
      a.length + 1 ≤ fuel →
      alnumOpt (lastOr prev a) = false →
      ∃ (x : List Char) (f : Nat),
        acroSubAux c5keys c5map fuel prev (a ++ phraseOcc ++ b)
          = x ++ ssCanon ++ acroSubAux c5keys c5map f (some 'n') b ∧
        x.length = a.length := by
  intro fuel
  induction fuel with
  | zero => intro prev a hf hl; omega
  | succ n ih =>
      intro prev a hf hlast
      cases a with
      | nil =>
          refine ⟨[], n, ?_, rfl⟩
          have hstep := acroSubAux_at_phrase n prev b (by simpa [lastOr] using hlast) hb
          simpa using hstep
      | cons c a' =>
          have hlast' : alnumOpt (c :: a').getLast? = false := by
            rw [← lastOr_ne_nil (List.cons_ne_nil c a')]
            exact hlast
          rw [List.cons_append, List.cons_append]
          simp only [acroSubAux]
          by_cases hp : alnumOpt prev = true
          · rw [if_pos hp]
            obtain ⟨x, f, hx, hlen⟩ := ih (some c) a' (by simp at hf; omega)
              (lastOr_skip hlast)
            refine ⟨c :: x, f, ?_, by simp [hlen]⟩
            rw [hx]
            simp [List.cons_append]
          · rw [if_neg hp]
            cases ht : tryKeysAt c5keys (c :: (a' ++ phraseOcc ++ b)) with
            | none =>
                simp only [ht]
                obtain ⟨x, f, hx, hlen⟩ := ih (some c) a' (by simp at hf; omega)
                  (lastOr_skip hlast)
                refine ⟨c :: x, f, ?_, by simp [hlen]⟩
                rw [hx]
                simp [List.cons_append]
            | some pr =>
                obtain ⟨m, rest⟩ := pr
                simp only [ht]
                obtain ⟨k, hk, hmatch, hmtake, hrestb⟩ := tryKeysAt_some ht
                have hmatch' : matchPrefixCI k ((c :: a') ++ phraseOcc ++ b)
                    = some rest := by
                  rw [List.cons_append, List.cons_append]
                  exact hmatch
                have hle : k.length ≤ (c :: a').length :=
                  c5_no_cross hk (by simp) hmatch'
                have hne : k.length ≠ (c :: a').length :=
                  c5_no_touch hk hlast' hmatch'
                have hlt : k.length < (c :: a').length := lt_of_le_of_ne hle hne
                have hk1 : 1 ≤ k.length := by
                  rcases mem_c5keys hk with rfl | rfl <;> decide
                obtain ⟨_, hrdrop⟩ := matchPrefixCI_some hmatch'
                have hrest_eq : rest = (c :: a').drop k.length ++ phraseOcc ++ b := by
                  rw [hrdrop, List.append_assoc,
                    List.drop_append_of_le_length (le_of_lt hlt), List.append_assoc]
                have hm_eq : m = (c :: a').take k.length := by
                  have : ((c :: a') ++ phraseOcc ++ b).take k.length
                      = (c :: a').take k.length := by
                    rw [List.append_assoc,
                      List.take_append_of_le_length (le_of_lt hlt)]
                  rw [hmtake, ← List.cons_append, ← List.cons_append, ← this]
                have hml : lowerL m = lowerL k := matched_lower_eq hmatch hmtake
                have hreplen : ((lookupA c5map (lowerL m)).getD m).length = k.length := by
                  rcases mem_c5keys hk with rfl | rfl
                  · rw [hml, show lowerL ssKey = ssKey from by decide,
                      show lookupA c5map ssKey = some ssCanon from by decide,
                      Option.getD_some]
                    decide
                  · rw [hml, show lowerL stKey = stKey from by decide,
                      show lookupA c5map stKey = some stCanon from by decide,
                      Option.getD_some]
                    decide
                have ha'' : (c :: a').drop k.length ≠ [] := by
                  intro hnil
                  have := congrArg List.length hnil
                  simp only [List.length_drop, List.length_nil] at this
                  omega
                have hlast'' :
                    alnumOpt (lastOr (lastOr prev m) ((c :: a').drop k.length))
                      = false := by
                  rw [lastOr_ne_nil ha'', getLast?_drop_of_ne_nil ha'']
                  exact hlast'
                have hflen : a'.length + 2 ≤ n + 1 := by simpa using hf
                have hle2 : k.length ≤ a'.length + 1 := by simpa using hle
                have hfuel : ((c :: a').drop k.length).length + 1 ≤ n := by
                  simp only [List.length_drop, List.length_cons]
                  omega
                obtain ⟨x, f, hx, hlen⟩ := ih (lastOr prev m)
                  ((c :: a').drop k.length) hfuel hlast''
                refine ⟨(lookupA c5map (lowerL m)).getD m ++ x, f, ?_, ?_⟩
                · rw [hrest_eq, hx]
                  simp [List.append_assoc]
                · simp only [List.length_append, hreplen, hlen, List.length_drop,
                    List.length_cons]
                  omega

/-- C5: with the table holding keys "space station" and "station" (distinct
canonical forms, longest key first as built by `_load_data`), substituting
over any text that contains "Space Station" as a standalone phrase (not
bordered by alphanumerics) applies the "space station" mapping at exactly
that position — the output carries the canonical form of the longer key
there, never an application of the "station" mapping. -/
theorem longest_match_wins (a b : List Char)
    (ha : alnumOpt a.getLast? = false) (hb : alnumOpt b.head? = false) :
    ∃ x y : List Char,
      acroSub c5keys c5map (a ++ phraseOcc ++ b) = x ++ ssCanon ++ y ∧
      x.length = a.length := by
  have hlast : alnumOpt (lastOr none a) = false := by
    cases haa : a with
    | nil => rfl
    | cons c a' =>
        rw [lastOr_ne_nil (List.cons_ne_nil c a'), ← haa]
        exact ha
  have hfuel : a.length + 1 ≤ (a ++ phraseOcc ++ b).length := by
    simp only [List.length_append]
    have : phraseOcc.length = 13 := by decide
    omega
  obtain ⟨x, f, hx, hlen⟩ :=
    acroSubAux_safe_context b hb ((a ++ phraseOcc ++ b).length) none a hfuel hlast
  exact ⟨x, acroSubAux c5keys c5map f (some 'n') b, hx, hlen⟩

/-- C5 witness: the substitution applied to a concrete standalone occurrence
between safe context pieces. -/
theorem longest_match_wins_witness :
    ∃ x y : List Char,
      acroSub c5keys c5map ("see the ".data ++ phraseOcc ++ " now".data)
        = x ++ ssCanon ++ y ∧
      x.length = "see the ".data.length :=
  longest_match_wins "see the ".data " now".data (by decide) (by decide)

end Nasa
